import Mathlib

/-!
Verification development for the VoiceCreation repository.

Text is modelled as `List Char`; JavaScript strings map to character lists,
`null` return values map to `Option.none`, and JavaScript regular-expression
searches used by the source are modelled by explicit scanning functions with
the same leftmost-match / lazy-group / greedy-group semantics as the literal
patterns appearing in the source.
-/

namespace VoiceCreation

abbrev Str := List Char

/-- Prefix test on character lists: does `pat` start the text `l`?  This is the
primitive used to model JavaScript substring search. -/
def isPrefixL : Str → Str → Bool
  | [], _ => true
  | _ :: _, [] => false
  | a :: as, b :: bs => a == b && isPrefixL as bs

theorem isPrefixL_iff (pat l : Str) : isPrefixL pat l = true ↔ pat <+: l := by
  induction pat generalizing l with
  | nil => simp [isPrefixL]
  | cons a as ih =>
    cases l with
    | nil =>
      simp [isPrefixL]
    | cons b bs =>
      simp [isPrefixL, List.cons_prefix_cons, ih]

/-- Substring containment on character lists, modelling
JavaScript `String.prototype.includes`. -/
def containsL : Str → Str → Bool
  | [], pat => pat.isEmpty
  | c :: rest, pat => isPrefixL pat (c :: rest) || containsL rest pat

theorem containsL_iff (l pat : Str) : containsL l pat = true ↔ pat <:+: l := by
  induction l with
  | nil =>
    simp [containsL, List.isEmpty_iff]
  | cons c rest ih =>
    simp [containsL, isPrefixL_iff, ih, List.infix_cons_iff]

theorem containsL_of_sub {y t pat : Str} (h1 : containsL y pat = true)
    (h2 : y <:+: t) : containsL t pat = true :=
  (containsL_iff t pat).2 (((containsL_iff y pat).1 h1).trans h2)

/-- Locate the first occurrence of `pat` in the text and split around it:
`splitFirst pat l = some (pre, suf)` when `l = pre ++ pat ++ suf` with `pre`
not containing an earlier occurrence. -/
def splitFirst (pat : Str) : Str → Option (Str × Str)
  | [] => none
  | c :: rest =>
    if isPrefixL pat (c :: rest) then some ([], (c :: rest).drop pat.length)
    else
      match splitFirst pat rest with
      | some (pre, suf) => some (c :: pre, suf)
      | none => none

theorem splitFirst_eq {pat l pre suf : Str}
    (h : splitFirst pat l = some (pre, suf)) : l = pre ++ pat ++ suf := by
  induction l generalizing pre with
  | nil => simp [splitFirst] at h
  | cons c rest ih =>
    by_cases hp : isPrefixL pat (c :: rest) = true
    · rw [splitFirst, if_pos hp] at h
      obtain ⟨s, hs⟩ := (isPrefixL_iff pat (c :: rest)).1 hp
      obtain ⟨hpre, hsuf⟩ := Prod.mk.injEq .. ▸ Option.some.injEq .. ▸ h
      subst hpre
      have hdrop : (c :: rest).drop pat.length = s := by
        rw [← hs, List.drop_left]
      rw [← hsuf, hdrop, List.nil_append, hs]
    · rw [splitFirst, if_neg hp] at h
      cases hsp : splitFirst pat rest with
      | none => rw [hsp] at h; exact absurd h (by simp)
      | some pr =>
        obtain ⟨p1, s1⟩ := pr
        rw [hsp] at h
        simp only [Option.some.injEq, Prod.mk.injEq] at h
        obtain ⟨hpre, hsuf⟩ := h
        subst hpre
        subst hsuf
        simp [ih hsp]

/-- JavaScript whitespace (ASCII part), as trimmed by `String.prototype.trim`
and matched by the regex class `\s`. -/
def isWsJS (c : Char) : Bool :=
  c == ' ' || c == '\t' || c == '\n' || c == '\r' || c == '\x0b' || c == '\x0c'

/-- JavaScript `String.prototype.trim` on character lists. -/
def trimL (l : Str) : Str := (l.dropWhile isWsJS).rdropWhile isWsJS

theorem trimL_sub (l : Str) : trimL l <:+: l := by
  have h1 : (l.dropWhile isWsJS).rdropWhile isWsJS <+: l.dropWhile isWsJS :=
    List.rdropWhile_prefix _ _
  have h2 : l.dropWhile isWsJS <:+ l := List.dropWhile_suffix _
  exact h1.isInfix.trans h2.isInfix

/-- ASCII lower-casing of one character, modelling the effect of JavaScript
`String.prototype.toLowerCase` on the ASCII texts handled by the source. -/
def toLowerJS (c : Char) : Char :=
  if c.toNat ≥ 65 && c.toNat ≤ 90 then Char.ofNat (c.toNat + 32) else c

/-- Lower-case a whole text. -/
def lowerL (l : Str) : Str := l.map toLowerJS

/-- Lazy fenced-block match: model of a JavaScript regex of the shape
`open([\s\S]*?)close` with literal delimiters.  The leftmost viable start
wins and the lazy group stops at the first later occurrence of the closing
delimiter. -/
def lazyMatch (openP closeP : Str) : Str → Option Str
  | [] => none
  | c :: rest =>
    if isPrefixL openP (c :: rest) then
      match splitFirst closeP ((c :: rest).drop openP.length) with
      | some (g, _) => some g
      | none => lazyMatch openP closeP rest
    else lazyMatch openP closeP rest

theorem sub_of_lazyMatch {openP closeP l g : Str}
    (h : lazyMatch openP closeP l = some g) : g <:+: l := by
  induction l with
  | nil => simp [lazyMatch] at h
  | cons c rest ih =>
    by_cases hp : isPrefixL openP (c :: rest) = true
    · rw [lazyMatch, if_pos hp] at h
      cases hsp : splitFirst closeP ((c :: rest).drop openP.length) with
      | none =>
        rw [hsp] at h
        exact (ih h).trans (List.IsSuffix.isInfix ⟨[c], rfl⟩)
      | some pr =>
        obtain ⟨g0, s0⟩ := pr
        rw [hsp] at h
        simp only [Option.some.injEq] at h
        subst h
        have hd : g0 <:+: (c :: rest).drop openP.length := by
          have := splitFirst_eq hsp
          exact ⟨[], closeP ++ s0, by simpa using this.symm⟩
        exact hd.trans (List.drop_suffix _ _).isInfix
    · rw [lazyMatch, if_neg hp] at h
      exact (ih h).trans (List.IsSuffix.isInfix ⟨[c], rfl⟩)

/-- Model of the fourth extraction regex `yaml\n([\s\S]*?)$` with the `m`
flag: it fires at the first occurrence of `yaml\n` and the lazy group runs to
the next end of line. -/
def matchYamlTail (l : Str) : Option Str :=
  match splitFirst ('y' :: 'a' :: 'm' :: 'l' :: '\n' :: []) l with
  | some (_, rest) => some (rest.takeWhile (fun c => !(c == '\n')))
  | none => none

theorem sub_of_matchYamlTail {l g : Str} (h : matchYamlTail l = some g) :
    g <:+: l := by
  unfold matchYamlTail at h
  cases hsp : splitFirst ('y' :: 'a' :: 'm' :: 'l' :: '\n' :: []) l with
  | none => rw [hsp] at h; exact absurd h (by simp)
  | some pr =>
    obtain ⟨p0, rest⟩ := pr
    rw [hsp] at h
    simp only [Option.some.injEq] at h
    subst h
    have h1 : rest.takeWhile (fun c => !(c == '\n')) <+: rest :=
      List.takeWhile_prefix _
    have h2 : rest <:+ l := ⟨p0 ++ ('y' :: 'a' :: 'm' :: 'l' :: '\n' :: []), by
      have := splitFirst_eq hsp
      simpa using this.symm⟩
    exact h1.isInfix.trans h2.isInfix

/-! Field keywords of the specification document. -/

def kProjectName : Str := "project_name:".data
def kProjectDescription : Str := "project_description:".data
def kUsers : Str := "users:".data
def kGoal : Str := "goal:".data
def kFeatures : Str := "features:".data
def kTechStack : Str := "tech_stack:".data
def kUiStyle : Str := "ui_style:".data

def requiredFields : List Str :=
  [kProjectName, kProjectDescription, kUsers, kGoal, kFeatures, kTechStack, kUiStyle]

/-- Strict validation of a candidate block: all seven required fields must be
present (substring check, as in the source). -/
def hasAllSevenFields (y : Str) : Bool := requiredFields.all (fun k => containsL y k)

/-- Fence delimiters used by the four extraction patterns. -/
def fenceYamlNl : Str := "```yaml\n".data
def nlFence : Str := "\n```".data
def fenceYaml : Str := "```yaml".data
def fence3 : Str := "```".data
def fenceNl : Str := "```\n".data

/-- Body of the pattern loop of `extractYamlFromText`: a match is used only if
its group is non-empty (JavaScript truthiness of `match[1]`), and the trimmed
content is returned only when all seven required fields are present. -/
def validateCandidate : Option Str → Option Str
  | none => none
  | some g =>
    if g.isEmpty then none
    else
      let y := trimL g
      if hasAllSevenFields y then some y else none

/-- JavaScript `String.prototype.split('\n')`. -/
def splitLines : Str → List Str
  | [] => [[]]
  | c :: rest =>
    if c == '\n' then [] :: splitLines rest
    else
      match splitLines rest with
      | l :: ls => (c :: l) :: ls
      | [] => [[c]]

/-- Join a list of lines with newlines (used to model `Array.prototype.join`
and the streaming accumulation `buffer += '\n' + chunk`). -/
def joinNL : List Str → Str
  | [] => []
  | [x] => x
  | x :: y :: rest => x ++ '\n' :: joinNL (y :: rest)

def kHowDoesThat : Str := "How does that".data

/-- Stop condition of the inner loop of the fence-free fallback scan. -/
def isStopLine (ln : Str) : Bool :=
  (trimL ln).isEmpty || containsL ln kHowDoesThat || containsL ln fence3

/-- Inner loop of the fallback scan: first stop line at index `≥ i`, else the
total number of lines. -/
def fallbackEnd (lines : List Str) (i : Nat) : Nat :=
  match (lines.drop i).findIdx? isStopLine with
  | some k => i + k
  | none => lines.length

/-- Outer loop of the fence-free fallback scan, tracking `yamlStart` and
breaking at the first `ui_style:`/`tech_stack:` line seen afterwards.  The
first argument is the full line array (indexed by the inner loop); the loop
walks the remaining lines together with the current index. -/
def fallbackGoAux (lines : List Str) : List Str → Nat → Option Nat → Option (Nat × Nat)
  | [], _, _ => none
  | ln :: rest, i, ys =>
    let ys2 := if ys.isNone && containsL ln kProjectName then some i else ys
    match ys2 with
    | some s =>
      if containsL ln kUiStyle || containsL ln kTechStack then
        some (s, fallbackEnd lines i)
      else fallbackGoAux lines rest (i + 1) (some s)
    | none => fallbackGoAux lines rest (i + 1) none

def fallbackGo (lines : List Str) : Option (Nat × Nat) :=
  fallbackGoAux lines lines 0 none

/-- Fence-free fallback of `extractYamlFromText`: guarded by five field
keywords only, then a line scan. -/
def fallbackExtract (t : Str) : Option Str :=
  if containsL t kProjectName && containsL t kFeatures && containsL t kTechStack &&
      containsL t kUsers && containsL t kGoal then
    let lines := splitLines t
    match fallbackGo lines with
    | some (s, e) => some (trimL (joinNL ((lines.drop s).take (e - s))))
    | none => none
  else none

/-- Model of `extractYamlFromText` (src/unnamed/part_001, lines 529-609): try
the four regex patterns in order, each validated against the seven required
fields, then the fence-free fallback scan. -/
def extractYamlFromText (t : Str) : Option Str :=
  match validateCandidate (lazyMatch fenceYamlNl nlFence t) with
  | some y => some y
  | none =>
  match validateCandidate (lazyMatch fenceYaml fence3 t) with
  | some y => some y
  | none =>
  match validateCandidate (lazyMatch fenceNl nlFence t) with
  | some y => some y
  | none =>
  match validateCandidate (matchYamlTail t) with
  | some y => some y
  | none => fallbackExtract t

theorem validateCandidate_some {o : Option Str} {y : Str}
    (h : validateCandidate o = some y) :
    ∃ g, o = some g ∧ y = trimL g ∧ hasAllSevenFields (trimL g) = true := by
  cases o with
  | none => simp [validateCandidate] at h
  | some g =>
    refine ⟨g, rfl, ?_⟩
    by_cases he : g.isEmpty = true
    · simp [validateCandidate, he] at h
    · by_cases hf : hasAllSevenFields (trimL g) = true
      · simp [validateCandidate, he, hf] at h
        exact ⟨h.symm, hf⟩
      · simp [validateCandidate, he, hf] at h

theorem fields_of_candidate {t y : Str} {o : Option Str}
    (hsub : ∀ g, o = some g → g <:+: t)
    (h : validateCandidate o = some y) {k : Str} (hk : k ∈ requiredFields) :
    containsL t k = true := by
  obtain ⟨g, ho, _, hf⟩ := validateCandidate_some h
  have hyk : containsL (trimL g) k = true := by
    have hall := List.all_eq_true.mp hf
    simpa using hall k hk
  exact containsL_of_sub hyk ((trimL_sub g).trans (hsub g ho))

theorem fiveKeys_of_candidate {t y : Str} {o : Option Str}
    (hsub : ∀ g, o = some g → g <:+: t)
    (h : validateCandidate o = some y) :
    containsL t kProjectName = true ∧ containsL t kUsers = true ∧
    containsL t kGoal = true ∧ containsL t kFeatures = true ∧
    containsL t kTechStack = true :=
  ⟨fields_of_candidate hsub h (by simp [requiredFields]),
   fields_of_candidate hsub h (by simp [requiredFields]),
   fields_of_candidate hsub h (by simp [requiredFields]),
   fields_of_candidate hsub h (by simp [requiredFields]),
   fields_of_candidate hsub h (by simp [requiredFields])⟩

theorem fiveKeys_of_fallback {t y : Str} (h : fallbackExtract t = some y) :
    containsL t kProjectName = true ∧ containsL t kUsers = true ∧
    containsL t kGoal = true ∧ containsL t kFeatures = true ∧
    containsL t kTechStack = true := by
  unfold fallbackExtract at h
  by_cases hg : (containsL t kProjectName && containsL t kFeatures &&
      containsL t kTechStack && containsL t kUsers && containsL t kGoal) = true
  · simp only [Bool.and_eq_true] at hg
    exact ⟨hg.1.1.1.1, hg.1.2, hg.2, hg.1.1.1.2, hg.1.1.2⟩
  · rw [if_neg hg] at h
    exact absurd h (by simp)

/-- Claim C1, amended: `extractYamlFromText` returns a value only when the
five field keys `project_name:`, `users:`, `goal:`, `features:` and
`tech_stack:` all occur in the scanned text.  (The all-seven biconditional
claimed by the spec fails: see the counterexample.) -/
theorem extractYamlFromText_some_implies_fiveKeys {t y : Str}
    (h : extractYamlFromText t = some y) :
    containsL t kProjectName = true ∧ containsL t kUsers = true ∧
    containsL t kGoal = true ∧ containsL t kFeatures = true ∧
    containsL t kTechStack = true := by
  unfold extractYamlFromText at h
  cases h1 : validateCandidate (lazyMatch fenceYamlNl nlFence t) with
  | some y1 => exact fiveKeys_of_candidate (fun g hg => sub_of_lazyMatch hg) h1
  | none =>
    rw [h1] at h
    cases h2 : validateCandidate (lazyMatch fenceYaml fence3 t) with
    | some y2 => exact fiveKeys_of_candidate (fun g hg => sub_of_lazyMatch hg) h2
    | none =>
      rw [h2] at h
      cases h3 : validateCandidate (lazyMatch fenceNl nlFence t) with
      | some y3 => exact fiveKeys_of_candidate (fun g hg => sub_of_lazyMatch hg) h3
      | none =>
        rw [h3] at h
        cases h4 : validateCandidate (matchYamlTail t) with
        | some y4 =>
          exact fiveKeys_of_candidate (fun g hg => sub_of_matchYamlTail hg) h4
        | none =>
          rw [h4] at h
          exact fiveKeys_of_fallback h

/-- Text used to refute claim C1 as stated: it has no `ui_style:` and no
`project_description:` line, yet the fence-free fallback extracts a value. -/
def c1Text : Str := "project_name: a\nusers: u\ngoal: g\nfeatures: f\ntech_stack: t".data

/-- Claim C1, counterexample: a text missing the required `ui_style:` (and
`project_description:`) field still yields a value from
`extractYamlFromText`, refuting the all-seven if-and-only-if. -/
theorem extractYamlFromText_missing_field_counterexample :
    (extractYamlFromText c1Text).isSome = true ∧
    containsL c1Text kUiStyle = false ∧
    containsL c1Text kProjectDescription = false :=
  ⟨rfl, rfl, rfl⟩

/-- A complete fenced specification block used by several witnesses. -/
def specText : Str :=
  ("```yaml\nproject_name: a\nproject_description: d\nusers: u\ngoal: g\nfeatures: f\ntech_stack: t\nui_style: s\n```").data

/-- The body of `specText` as returned by the extractor. -/
def specBody : Str :=
  "project_name: a\nproject_description: d\nusers: u\ngoal: g\nfeatures: f\ntech_stack: t\nui_style: s".data

/-- Claim C1, witness for the amended theorem at a concrete extraction. -/
theorem extractYamlFromText_fiveKeys_witness :
    containsL specText kProjectName = true ∧ containsL specText kUsers = true ∧
    containsL specText kGoal = true ∧ containsL specText kFeatures = true ∧
    containsL specText kTechStack = true :=
  extractYamlFromText_some_implies_fiveKeys (t := specText) (y := specBody) rfl

/-! Approval classifier. -/

def approvalPhrases : List Str :=
  ["looks good".data, "that looks good".data, "yes".data, "perfect".data,
   "great".data, "awesome".data, "i like that".data, "that works".data,
   "let's build".data, "let's go".data, "ready".data, "is ready".data,
   "it's ready".data, "the prompt is ready".data, "prompt is ready".data,
   "approved".data, "correct".data, "that's right".data, "sounds good".data,
   "good to go".data, "let's do it".data, "let's start".data, "move on".data,
   "next step".data, "continue".data, "proceed".data]

/-- Model of `detectYamlApproval` (src/unnamed/part_001, lines 612-654):
lower-case and trim the utterance, then check substring containment against
the fixed phrase list. -/
def detectYamlApproval (userMessage : Str) : Bool :=
  let lowerMessage := trimL (lowerL userMessage)
  approvalPhrases.any (fun p => containsL lowerMessage p)

/-- Claim C3: `detectYamlApproval` depends only on the lower-cased, trimmed
utterance, so two utterances that differ only in letter case and in leading
or trailing whitespace classify identically. -/
theorem detectYamlApproval_case_trim_insensitive {u v : Str}
    (h : trimL (lowerL u) = trimL (lowerL v)) :
    detectYamlApproval u = detectYamlApproval v := by
  unfold detectYamlApproval
  rw [h]

def looksGoodMixed : Str := "Looks Good!".data
def looksGoodSpaced : Str := "  looks good!  ".data

/-- Claim C3, witness: the spec's concrete pair, `isApproval("Looks Good!")`
equals `isApproval("  looks good!  ")` (and both are positive). -/
theorem detectYamlApproval_insensitive_witness :
    detectYamlApproval looksGoodMixed = detectYamlApproval looksGoodSpaced ∧
    detectYamlApproval looksGoodMixed = true :=
  ⟨detectYamlApproval_case_trim_insensitive rfl, rfl⟩

/-! Conversation phase state machine. -/

inductive ConversationPhase
  | ideation
  | prompt_review
  | transitioning
  | code_generation
  deriving DecidableEq, Repr

/-- Model of the mutable `conversationState` of the agent server. -/
structure ConversationState where
  phase : ConversationPhase
  lastYamlPrompt : Option Str := none
  sessionId : Option Str := none
  yamlBuffer : Option Str := none
  deriving DecidableEq, Repr

def initialConversationState : ConversationState := { phase := .ideation }

/-- JavaScript truthiness of an optional string (`undefined`/`''` are falsy). -/
def optTruthy : Option Str → Bool
  | some y => !y.isEmpty
  | none => false

/-- Result of an `extractYamlFromText` call as consumed through JavaScript
truthiness: the empty string behaves like no result. -/
def jsVal : Option Str → Option Str
  | some y => if y.isEmpty then none else some y
  | none => none

def movingOnPhrases : List Str :=
  ["would you like to edit".data, "is it ready".data,
   "starting code generation".data, "great!".data, "perfect!".data,
   "let me know".data, "you're welcome".data, "if you're ready".data]

/-- Check whether an assistant chunk signals the model moving on to other
topics (forcing completion of an open YAML buffer). -/
def isMovingOn (content : Str) : Bool :=
  movingOnPhrases.any (fun p => containsL (lowerL content) p)

/-- Model of the assistant-message branch of the agent WebSocket handler
(src/unnamed/part_001, lines 927-995): YAML-buffer accumulation across
streamed chunks. -/
def assistantStep (s : ConversationState) (content : Str) : ConversationState :=
  if containsL content fenceYaml then
    { s with yamlBuffer := some content }
  else
    match s.yamlBuffer with
    | some b =>
      if containsL content fence3 then
        match jsVal (extractYamlFromText (b ++ '\n' :: content)) with
        | some y =>
          { s with lastYamlPrompt := some y, phase := .prompt_review, yamlBuffer := none }
        | none => { s with yamlBuffer := none }
      else if isMovingOn content then
        match jsVal (extractYamlFromText (b ++ '\n' :: content)) with
        | some y =>
          { s with lastYamlPrompt := some y, phase := .prompt_review, yamlBuffer := none }
        | none => { s with yamlBuffer := none }
      else { s with yamlBuffer := some (b ++ '\n' :: content) }
    | none =>
      match jsVal (extractYamlFromText content) with
      | some y => { s with lastYamlPrompt := some y, phase := .prompt_review }
      | none => s

/-- Feed a sequence of assistant chunks through the handler from a fresh
connection state. -/
def observeChunks (chunks : List Str) : ConversationState :=
  chunks.foldl assistantStep initialConversationState

/-- Claim C2, counterexample: a complete valid specification block delivered
as one single chunk only opens the YAML buffer — no Specification results,
although extracting from the whole text at once succeeds. -/
theorem observe_single_chunk_counterexample :
    extractYamlFromText specText = some specBody ∧
    (observeChunks [specText]).lastYamlPrompt = none :=
  ⟨rfl, rfl⟩

/-- Newline accumulation of chunks into an open buffer, as performed by
`yamlBuffer += '\n' + message.content`. -/
def accumNL (b : Str) : List Str → Str
  | [] => b
  | m :: ms => accumNL (b ++ '\n' :: m) ms

theorem joinNL_cons_cons (b m : Str) (tl : List Str) :
    joinNL ((b ++ '\n' :: m) :: tl) = b ++ '\n' :: joinNL (m :: tl) := by
  cases tl with
  | nil => simp [joinNL]
  | cons x xs => simp [joinNL]

theorem accumNL_eq_joinNL (ms : List Str) (b : Str) :
    accumNL b ms = joinNL (b :: ms) := by
  induction ms generalizing b with
  | nil => simp [accumNL, joinNL]
  | cons m tl ih =>
    rw [accumNL, ih, joinNL_cons_cons]
    rfl

theorem accumNL_append_last (ms : List Str) (b c : Str) :
    accumNL b (ms ++ [c]) = accumNL b ms ++ '\n' :: c := by
  induction ms generalizing b with
  | nil => simp [accumNL]
  | cons m tl ih => rw [List.cons_append, accumNL, ih, accumNL]

theorem contains_of_trans {t a b : Str} (h1 : containsL t a = true)
    (h2 : containsL a b = true) : containsL t b = true :=
  (containsL_iff t b).2 (((containsL_iff a b).1 h2).trans ((containsL_iff t a).1 h1))

theorem accumulate_mid_chunks (chunks : List Str) (s : ConversationState) (b : Str)
    (hb : s.yamlBuffer = some b)
    (hm : ∀ m ∈ chunks, containsL m fence3 = false ∧ isMovingOn m = false) :
    chunks.foldl assistantStep s = { s with yamlBuffer := some (accumNL b chunks) } := by
  induction chunks generalizing s b with
  | nil =>
    cases s
    simp_all [accumNL]
  | cons m tl ih =>
    obtain ⟨hm3, hmo⟩ := hm m (by simp)
    have hmy : containsL m fenceYaml = false := by
      cases hy : containsL m fenceYaml with
      | false => rfl
      | true =>
        have h3 : containsL m fence3 = true :=
          contains_of_trans hy (show containsL fenceYaml fence3 = true by rfl)
        rw [hm3] at h3
        exact Bool.noConfusion h3
    have hstep : assistantStep s m = { s with yamlBuffer := some (b ++ '\n' :: m) } := by
      unfold assistantStep
      rw [hmy, hb]
      simp [hm3, hmo]
    rw [List.foldl_cons, hstep,
      ih { s with yamlBuffer := some (b ++ '\n' :: m) } (b ++ '\n' :: m) rfl
        (fun x hx => hm x (by simp [hx]))]
    rfl

/-- Claim C2, amended: a complete specification block split into two or more
chunks at line-group boundaries — an opening chunk containing the fence
opener, interior chunks free of fence markers and moving-on phrases, and a
final chunk carrying the closing fence — streams to exactly the value that
`extractYamlFromText` produces on the newline-join of the chunks (the whole
text).  The single-chunk split, by contrast, only opens the buffer (see the
counterexample). -/
theorem assistantStep_close {s : ConversationState} {b cl : Str}
    (hb : s.yamlBuffer = some b)
    (hcl1 : containsL cl fenceYaml = false) (hcl2 : containsL cl fence3 = true) :
    assistantStep s cl =
      match jsVal (extractYamlFromText (b ++ '\n' :: cl)) with
      | some y =>
        { s with lastYamlPrompt := some y, phase := .prompt_review, yamlBuffer := none }
      | none => { s with yamlBuffer := none } := by
  unfold assistantStep
  rw [hcl1, hb]
  simp [hcl2]

theorem observe_multichunk_eq_extract (c0 cl : Str) (mid : List Str)
    (h0 : containsL c0 fenceYaml = true)
    (hm : ∀ m ∈ mid, containsL m fence3 = false ∧ isMovingOn m = false)
    (hcl1 : containsL cl fenceYaml = false)
    (hcl2 : containsL cl fence3 = true) :
    (observeChunks (c0 :: (mid ++ [cl]))).lastYamlPrompt
      = jsVal (extractYamlFromText (joinNL (c0 :: (mid ++ [cl])))) := by
  have hfirst : assistantStep initialConversationState c0 =
      { initialConversationState with yamlBuffer := some c0 } := by
    unfold assistantStep
    rw [h0]
    simp
  have hjoin : accumNL c0 mid ++ '\n' :: cl = joinNL (c0 :: (mid ++ [cl])) := by
    rw [← accumNL_append_last, accumNL_eq_joinNL]
  unfold observeChunks
  rw [List.foldl_cons, hfirst, List.foldl_append,
    accumulate_mid_chunks mid _ c0 rfl hm, List.foldl_cons, List.foldl_nil,
    assistantStep_close rfl hcl1 hcl2, hjoin]
  cases jsVal (extractYamlFromText (joinNL (c0 :: (mid ++ [cl])))) with
  | none => rfl
  | some y => rfl

def wOpenChunk : Str := "```yaml".data
def wMidChunks : List Str :=
  ["project_name: a".data, "project_description: d".data, "users: u".data,
   "goal: g".data, "features: f".data, "tech_stack: t".data, "ui_style: s".data]
def wCloseChunk : Str := fence3

/-- Claim C2, witness: the concrete line-by-line split of `specText` streams
to the same Specification that whole-text extraction yields. -/
theorem observe_multichunk_witness :
    (observeChunks (wOpenChunk :: (wMidChunks ++ [wCloseChunk]))).lastYamlPrompt
      = jsVal (extractYamlFromText (joinNL (wOpenChunk :: (wMidChunks ++ [wCloseChunk])))) :=
  observe_multichunk_eq_extract wOpenChunk wCloseChunk wMidChunks rfl
    (by intro m hm; fin_cases hm <;> exact ⟨rfl, rfl⟩) rfl rfl

/-- Outcome of a `startCodeGeneration` call: the resolved result object, or a
thrown error.  This is an input of the model since it is produced by the
external generation pipeline. -/
inductive GenOutcome
  | success (previewUrl : Str)
  | failure (error : Str)
  | thrown (error : Str)
  deriving DecidableEq, Repr

/-- Model of the user-message branch of the agent WebSocket handler
(src/unnamed/part_001, lines 997-1073).  On an approved prompt the phase
passes through `transitioning` to `code_generation`; a failed or throwing
generation run resets the state; all other user messages leave the state
untouched (the remaining branches only log or send informational text). -/
def userStep (s : ConversationState) (content : Str) (newSid : Str)
    (outcome : GenOutcome) : ConversationState :=
  if s.phase = .prompt_review ∧ optTruthy s.lastYamlPrompt = true ∧
      detectYamlApproval content = true then
    match outcome with
    | .success _ => { s with phase := .code_generation, sessionId := some newSid }
    | .failure _ =>
      { phase := .ideation, lastYamlPrompt := none, sessionId := none,
        yamlBuffer := s.yamlBuffer }
    | .thrown _ =>
      { phase := .ideation, lastYamlPrompt := none, sessionId := none,
        yamlBuffer := s.yamlBuffer }
  else s

/-- One inbound user message together with the environment-chosen session id
and generation outcome that would be used if it triggered a run. -/
structure UserEvent where
  content : Str
  newSid : Str
  outcome : GenOutcome
  deriving DecidableEq, Repr

def runUserEvents (s : ConversationState) (evs : List UserEvent) : ConversationState :=
  evs.foldl (fun st e => userStep st e.content e.newSid e.outcome) s

theorem userStep_no_approval {s : ConversationState} {e : UserEvent}
    (hna : detectYamlApproval e.content = false) :
    userStep s e.content e.newSid e.outcome = s := by
  unfold userStep
  rw [if_neg]
  intro hc
  rw [hna] at hc
  exact Bool.noConfusion hc.2.2

/-- Claim C4: from the `prompt_review` phase, a session fed any sequence of
user messages none of which matches an approval phrase stays in
`prompt_review` — there is no spontaneous transition to `transitioning` or
`code_generation`. -/
theorem promptReview_stays_without_approval (s : ConversationState)
    (evs : List UserEvent) (hp : s.phase = .prompt_review)
    (hm : ∀ e ∈ evs, detectYamlApproval e.content = false) :
    (runUserEvents s evs).phase = .prompt_review := by
  induction evs generalizing s with
  | nil => exact hp
  | cons e tl ih =>
    unfold runUserEvents
    rw [List.foldl_cons, userStep_no_approval (hm e (by simp))]
    exact ih s hp (fun x hx => hm x (by simp [hx]))

def reviewStateW : ConversationState :=
  { phase := .prompt_review, lastYamlPrompt := some specBody }

def nonApprovingEvents : List UserEvent :=
  [{ content := "please change the colors".data, newSid := "sid-1".data,
     outcome := .success "http://localhost:4000".data },
   { content := "hmm, can we add a settings page".data, newSid := "sid-2".data,
     outcome := .failure "boom".data }]

/-- Claim C4, witness: a concrete review-phase session fed two non-approving
messages stays in `prompt_review`. -/
theorem promptReview_stays_witness :
    (runUserEvents reviewStateW nonApprovingEvents).phase = .prompt_review :=
  promptReview_stays_without_approval reviewStateW nonApprovingEvents rfl
    (by intro e he; fin_cases he <;> rfl)

/-- Claim C9: whenever the generation run reports failure or throws, the
handler resets the phase to `ideation` and clears both the stored
specification and the session id. -/
theorem codegen_failure_resets (s : ConversationState) (content newSid : Str)
    (out : GenOutcome) (hp : s.phase = .prompt_review)
    (hy : optTruthy s.lastYamlPrompt = true)
    (ha : detectYamlApproval content = true)
    (hout : (∃ e, out = .failure e) ∨ (∃ e, out = .thrown e)) :
    (userStep s content newSid out).phase = .ideation ∧
    (userStep s content newSid out).lastYamlPrompt = none ∧
    (userStep s content newSid out).sessionId = none := by
  have hcond : s.phase = .prompt_review ∧ optTruthy s.lastYamlPrompt = true ∧
      detectYamlApproval content = true := ⟨hp, hy, ha⟩
  unfold userStep
  rw [if_pos hcond]
  rcases hout with ⟨e, he⟩ | ⟨e, he⟩ <;> subst he <;> exact ⟨rfl, rfl, rfl⟩

/-- Claim C9, witness: a concrete failing run resets the concrete review
state. -/
theorem codegen_failure_resets_witness :
    (userStep reviewStateW "looks good".data "sid-9".data
        (.failure "parse error".data)).phase = .ideation ∧
    (userStep reviewStateW "looks good".data "sid-9".data
        (.failure "parse error".data)).lastYamlPrompt = none ∧
    (userStep reviewStateW "looks good".data "sid-9".data
        (.failure "parse error".data)).sessionId = none :=
  codegen_failure_resets reviewStateW "looks good".data "sid-9".data
    (.failure "parse error".data) rfl rfl rfl (Or.inl ⟨"parse error".data, rfl⟩)

/-! Readiness probe: findOpenPort. -/

/-- Loop of `findOpenPort` (src/unnamed/part_000, lines 594-610): probe ports
upward from `p` to `last` against the bind-availability oracle `avail`.  The
fuel argument only drives structural recursion; `findOpenPort` supplies
enough for the whole range. -/
def findOpenPortGo (avail : Nat → Bool) : Nat → Nat → Nat → Option Nat
  | 0, _, _ => none
  | fuel + 1, p, last =>
    if p ≤ last then
      if avail p then some p else findOpenPortGo avail fuel (p + 1) last
    else none

/-- Model of `findOpenPort`: first available port in `[start, last]` in
ascending order; `none` models the thrown `No open port found in range`. -/
def findOpenPort (avail : Nat → Bool) (start last : Nat) : Option Nat :=
  findOpenPortGo avail (last + 1 - start) start last

theorem findOpenPortGo_some {avail : Nat → Bool} {last r : Nat} :
    ∀ {fuel p}, findOpenPortGo avail fuel p last = some r →
      p ≤ r ∧ r ≤ last ∧ avail r = true ∧
      ∀ q, p ≤ q → q < r → avail q = false := by
  intro fuel
  induction fuel with
  | zero => intro p h; simp [findOpenPortGo] at h
  | succ n ih =>
    intro p h
    rw [findOpenPortGo] at h
    by_cases hpl : p ≤ last
    · rw [if_pos hpl] at h
      cases hav : avail p with
      | true =>
        rw [hav, if_pos rfl] at h
        simp only [Option.some.injEq] at h
        subst h
        exact ⟨le_refl _, hpl, hav, fun q h1 h2 => absurd (lt_of_le_of_lt h1 h2) (lt_irrefl _)⟩
      | false =>
        rw [hav] at h
        simp only [Bool.false_eq_true, if_neg] at h
        obtain ⟨h1, h2, h3, h4⟩ := ih h
        refine ⟨by omega, h2, h3, fun q hq1 hq2 => ?_⟩
        rcases Nat.eq_or_lt_of_le hq1 with he | hl
        · rw [← he]; exact hav
        · exact h4 q hl hq2
    · rw [if_neg hpl] at h
      exact absurd h (by simp)

theorem findOpenPortGo_none {avail : Nat → Bool} {last : Nat} :
    ∀ {fuel p}, last + 1 - p ≤ fuel →
      (findOpenPortGo avail fuel p last = none ↔
        ∀ q, p ≤ q → q ≤ last → avail q = false) := by
  intro fuel
  induction fuel with
  | zero =>
    intro p hf
    have hpl : last < p := by omega
    simp only [findOpenPortGo, true_iff]
    intro q h1 h2
    omega
  | succ n ih =>
    intro p hf
    rw [findOpenPortGo]
    by_cases hpl : p ≤ last
    · rw [if_pos hpl]
      cases hav : avail p with
      | true =>
        simp only [if_pos rfl]
        constructor
        · intro h; exact absurd h (by simp)
        · intro h
          rw [h p (le_refl p) hpl] at hav
          exact Bool.noConfusion hav
      | false =>
        simp only [Bool.false_eq_true, if_false]
        rw [ih (p := p + 1) (by omega)]
        constructor
        · intro h q hq1 hq2
          rcases Nat.eq_or_lt_of_le hq1 with he | hl
          · rw [← he]; exact hav
          · exact h q hl hq2
        · intro h q hq1 hq2
          exact h q (by omega) hq2
    · rw [if_neg hpl]
      simp only [true_iff]
      intro q h1 h2
      omega

/-- Claim C5: `findOpenPort` probes candidate ports in ascending order and
returns the first port the availability oracle accepts; it returns no port
exactly when every port of the range fails — in particular for an empty
range. -/
theorem findOpenPort_spec (avail : Nat → Bool) (start last : Nat) :
    (∀ p, findOpenPort avail start last = some p →
      start ≤ p ∧ p ≤ last ∧ avail p = true ∧
      ∀ q, start ≤ q → q < p → avail q = false) ∧
    (findOpenPort avail start last = none ↔
      ∀ p, start ≤ p → p ≤ last → avail p = false) :=
  ⟨fun _ h => findOpenPortGo_some h, findOpenPortGo_none (le_refl _)⟩

def availW : Nat → Bool := fun p => p == 4002

/-- Claim C5, witness: with only port 4002 available in `[4000, 4100]` the
probe returns 4002, the earlier candidate 4001 is indeed unavailable, and an
empty range yields no port. -/
theorem findOpenPort_spec_witness :
    findOpenPort availW 4000 4100 = some 4002 ∧
    4000 ≤ 4002 ∧ 4002 ≤ 4100 ∧ availW 4002 = true ∧ availW 4001 = false ∧
    findOpenPort availW 4100 4000 = none := by
  have h := (findOpenPort_spec availW 4000 4100).1 4002 rfl
  refine ⟨rfl, h.1, h.2.1, h.2.2.1, h.2.2.2 4001 (by norm_num) (by norm_num), ?_⟩
  exact (findOpenPort_spec availW 4100 4000).2.mpr (fun p h1 h2 => by omega)

/-! Filesystem model and the materialization step of the orchestrator. -/

/-- The filesystem as a map from absolute file paths to file contents;
directories are implicit. -/
def FileSystem := Str → Option Str

def slash : Char := '/'

/-- Per-session generation directory `generated/{sessionId}`. -/
def genDirOf (sessionId : Str) : Str := "generated/".data ++ sessionId

/-- Repo directory `generated/{sessionId}/repo`. -/
def repoDirOf (sessionId : Str) : Str := genDirOf sessionId ++ slash :: "repo".data

/-- Absolute path of one generated file below the repo directory. -/
def fullPathOf (sessionId relPath : Str) : Str := repoDirOf sessionId ++ slash :: relPath

/-- Model of `fs.rmSync(dir, { recursive: true, force: true })`: every file
below `root` disappears. -/
def rmRec (root : Str) (fs : FileSystem) : FileSystem :=
  fun p => if isPrefixL (root ++ [slash]) p = true then none else fs p

/-- Model of `fs.writeFileSync`. -/
def writeFile (fs : FileSystem) (p c : Str) : FileSystem :=
  fun q => if q = p then some c else fs q

/-- One entry of the generation model's `files` array. -/
structure GeneratedFile where
  path : Str
  content : Str
  deriving DecidableEq, Repr

/-- The write loop of the materialization step. -/
def writeAll (sessionId : Str) (files : List GeneratedFile) (fs : FileSystem) :
    FileSystem :=
  files.foldl (fun a f => writeFile a (fullPathOf sessionId f.path) f.content) fs

/-- Model of the materialization step of `runClaudeCodegen`
(src/unnamed/part_000, lines 540-554): remove any pre-existing session
directory, then write each generated file beneath the fresh repo directory. -/
def materialize (sessionId : Str) (files : List GeneratedFile) (fs : FileSystem) :
    FileSystem :=
  writeAll sessionId files (rmRec (genDirOf sessionId) fs)

theorem fullPath_under_genDir (sid rel : Str) :
    isPrefixL (genDirOf sid ++ [slash]) (fullPathOf sid rel) = true := by
  rw [isPrefixL_iff]
  refine ⟨"repo".data ++ slash :: rel, ?_⟩
  simp [fullPathOf, repoDirOf]

theorem rmRec_writeFile {sid : Str} (fs : FileSystem) (rel c : Str) :
    rmRec (genDirOf sid) (writeFile fs (fullPathOf sid rel) c)
      = rmRec (genDirOf sid) fs := by
  funext q
  unfold rmRec writeFile
  by_cases hq : isPrefixL (genDirOf sid ++ [slash]) q = true
  · rw [if_pos hq, if_pos hq]
  · rw [if_neg hq, if_neg hq]
    have hne : q ≠ fullPathOf sid rel := by
      intro he
      rw [he] at hq
      exact hq (fullPath_under_genDir sid rel)
    rw [if_neg hne]

theorem rmRec_writeAll (sid : Str) (files : List GeneratedFile) (fs : FileSystem) :
    rmRec (genDirOf sid) (writeAll sid files fs) = rmRec (genDirOf sid) fs := by
  induction files generalizing fs with
  | nil => rfl
  | cons f tl ih =>
    unfold writeAll
    rw [List.foldl_cons]
    have := ih (writeFile fs (fullPathOf sid f.path) f.content)
    unfold writeAll at this
    rw [this, rmRec_writeFile]

theorem rmRec_idem (root : Str) (fs : FileSystem) :
    rmRec root (rmRec root fs) = rmRec root fs := by
  funext q
  unfold rmRec
  by_cases hq : isPrefixL (root ++ [slash]) q = true
  · rw [if_pos hq, if_pos hq]
  · rw [if_neg hq]

/-- Claim C7: materializing the same session id and file set twice leaves the
filesystem exactly as one materialization does — the pre-removal of the
session directory makes the step idempotent. -/
theorem materialize_idempotent (sid : Str) (files : List GeneratedFile)
    (fs : FileSystem) :
    materialize sid files (materialize sid files fs) = materialize sid files fs := by
  unfold materialize
  rw [rmRec_writeAll, rmRec_idem]

/-- Content of the last entry of `files` whose relative path is `rel`. -/
def lastWriteContent (files : List GeneratedFile) (rel : Str) : Option Str :=
  (files.reverse.find? (fun f => decide (f.path = rel))).map (fun f => f.content)

theorem fullPathOf_inj {sid a b : Str} (h : fullPathOf sid a = fullPathOf sid b) :
    a = b := by
  unfold fullPathOf at h
  have := List.append_cancel_left h
  exact List.cons.injEq .. ▸ this |>.2

theorem writeFile_apply (fs : FileSystem) (p c q : Str) :
    writeFile fs p c q = if q = p then some c else fs q := rfl

theorem writeAll_lastWrite (sid rel : Str) (g : FileSystem)
    (hg : g (fullPathOf sid rel) = none) (files : List GeneratedFile) :
    writeAll sid files g (fullPathOf sid rel) = lastWriteContent files rel := by
  induction files using List.reverseRecOn with
  | nil => simpa [writeAll, lastWriteContent]
  | append_singleton tl f ih =>
    unfold writeAll
    rw [List.foldl_append, List.foldl_cons, List.foldl_nil, writeFile_apply]
    by_cases hp : f.path = rel
    · rw [if_pos (by rw [hp])]
      unfold lastWriteContent
      rw [List.reverse_append]
      simp [hp]
    · rw [if_neg (fun he => hp (fullPathOf_inj he).symm)]
      unfold writeAll at ih
      rw [ih]
      unfold lastWriteContent
      rw [List.reverse_append]
      simp [hp]

/-- Claim C8: after materialization, each relative path below the repo
directory holds the content of the last `files` entry carrying that path —
duplicate paths resolve last-write-wins. -/
theorem materialize_lastWriteWins (sid rel : Str) (files : List GeneratedFile)
    (fs : FileSystem) :
    materialize sid files fs (fullPathOf sid rel) = lastWriteContent files rel :=
  writeAll_lastWrite sid rel _
    (by unfold rmRec; rw [if_pos (fullPath_under_genDir sid rel)]) files

/-! JSON values and a model of JavaScript JSON.parse, used by the generation
payload parse chain of `runClaudeCodegen`. -/

inductive JVal
  | jnull
  | jbool (b : Bool)
  | jnum (lexeme : Str)
  | jstr (s : Str)
  | jarr (items : List JVal)
  | jobj (members : List (Str × JVal))
  deriving Repr

/-- JSON grammar whitespace. -/
def isWsJson (c : Char) : Bool := c == ' ' || c == '\t' || c == '\n' || c == '\r'

def skipWs (l : Str) : Str := l.dropWhile isWsJson

def isHexDig (c : Char) : Bool :=
  c.isDigit || (decide (97 ≤ c.toNat) && decide (c.toNat ≤ 102)) ||
    (decide (65 ≤ c.toNat) && decide (c.toNat ≤ 70))

def hexVal (c : Char) : Nat :=
  if c.isDigit then c.toNat - 48
  else if decide (97 ≤ c.toNat) then c.toNat - 87
  else c.toNat - 55

/-- One short escape sequence inside a JSON string. -/
def escapeChar : Char → Option Char
  | '"' => some '"'
  | '\\' => some '\\'
  | '/' => some '/'
  | 'b' => some '\x08'
  | 'f' => some '\x0c'
  | 'n' => some '\n'
  | 'r' => some '\r'
  | 't' => some '\t'
  | _ => none

/-- Parse the remainder of a JSON string after its opening quote; raw control
characters are rejected, as `JSON.parse` does. -/
def parseJString : Nat → Str → Option (Str × Str)
  | 0, _ => none
  | _, [] => none
  | fuel + 1, c :: rest =>
    if c == '"' then some ([], rest)
    else if c == '\\' then
      match rest with
      | [] => none
      | e :: rest2 =>
        if e == 'u' then
          match rest2 with
          | h1 :: h2 :: h3 :: h4 :: rest3 =>
            if isHexDig h1 && isHexDig h2 && isHexDig h3 && isHexDig h4 then
              match parseJString fuel rest3 with
              | some (s, rem) =>
                some (Char.ofNat
                  (((hexVal h1 * 16 + hexVal h2) * 16 + hexVal h3) * 16 + hexVal h4) :: s, rem)
              | none => none
            else none
          | _ => none
        else
          match escapeChar e with
          | some ec =>
            match parseJString fuel rest2 with
            | some (s, rem) => some (ec :: s, rem)
            | none => none
          | none => none
    else if decide (c.toNat < 32) then none
    else
      match parseJString fuel rest with
      | some (s, rem) => some (c :: s, rem)
      | none => none

def lexExpSign (e : Char) (r : Str) : Option (Str × Str) :=
  let pair : Str × Str :=
    match r with
    | '+' :: t => (['+'], t)
    | '-' :: t => (['-'], t)
    | _ => ([], r)
  if (pair.2.headD ' ').isDigit then
    some (e :: pair.1 ++ pair.2.takeWhile Char.isDigit, pair.2.dropWhile Char.isDigit)
  else none

def lexExp (l : Str) : Option (Str × Str) :=
  match l with
  | 'e' :: r => lexExpSign 'e' r
  | 'E' :: r => lexExpSign 'E' r
  | _ => some ([], l)

def lexFrac (l : Str) : Option (Str × Str) :=
  match l with
  | '.' :: r =>
    if (r.headD ' ').isDigit then
      some ('.' :: r.takeWhile Char.isDigit, r.dropWhile Char.isDigit)
    else none
  | _ => some ([], l)

/-- Lex one JSON number, keeping the lexeme (numeric value is irrelevant to
the modelled control flow). -/
def parseJNumber (l : Str) : Option (Str × Str) :=
  let pair : Str × Str := match l with | '-' :: r => (['-'], r) | _ => ([], l)
  match pair.2 with
  | [] => none
  | c :: rest =>
    if c.isDigit = false then none
    else if c == '0' && (rest.headD ' ').isDigit then none
    else
      let ds := pair.2.takeWhile Char.isDigit
      let r1 := pair.2.dropWhile Char.isDigit
      match lexFrac r1 with
      | none => none
      | some (fr, r2) =>
        match lexExp r2 with
        | none => none
        | some (ex, r3) => some (pair.1 ++ ds ++ fr ++ ex, r3)

mutual

/-- One JSON value starting at the input (leading whitespace allowed),
returning the value and the remaining input. -/
def parseJValue : Nat → Str → Option (JVal × Str)
  | 0, _ => none
  | fuel + 1, input =>
    match skipWs input with
    | [] => none
    | c :: rest =>
      if c == '{' then
        match skipWs rest with
        | '}' :: r2 => some (.jobj [], r2)
        | _ => parseJMembers fuel rest []
      else if c == '[' then
        match skipWs rest with
        | ']' :: r2 => some (.jarr [], r2)
        | _ => parseJItems fuel rest []
      else if c == '"' then
        match parseJString (rest.length + 1) rest with
        | some (s, rem) => some (.jstr s, rem)
        | none => none
      else if isPrefixL "null".data (c :: rest) then some (.jnull, rest.drop 3)
      else if isPrefixL "true".data (c :: rest) then some (.jbool true, rest.drop 3)
      else if isPrefixL "false".data (c :: rest) then some (.jbool false, rest.drop 4)
      else
        match parseJNumber (c :: rest) with
        | some (lex, rem) => some (.jnum lex, rem)
        | none => none

/-- Object members after the opening brace (non-empty object), in order. -/
def parseJMembers : Nat → Str → List (Str × JVal) → Option (JVal × Str)
  | 0, _, _ => none
  | fuel + 1, l, acc =>
    match skipWs l with
    | '"' :: r1 =>
      match parseJString (r1.length + 1) r1 with
      | some (key, r2) =>
        match skipWs r2 with
        | ':' :: r3 =>
          match parseJValue fuel r3 with
          | some (v, r4) =>
            match skipWs r4 with
            | ',' :: r5 => parseJMembers fuel r5 (acc ++ [(key, v)])
            | '}' :: r5 => some (.jobj (acc ++ [(key, v)]), r5)
            | _ => none
          | none => none
        | _ => none
      | none => none
    | _ => none

/-- Array items after the opening bracket (non-empty array), in order. -/
def parseJItems : Nat → Str → List JVal → Option (JVal × Str)
  | 0, _, _ => none
  | fuel + 1, l, acc =>
    match parseJValue fuel l with
    | some (v, r1) =>
      match skipWs r1 with
      | ',' :: r2 => parseJItems fuel r2 (acc ++ [v])
      | ']' :: r2 => some (.jarr (acc ++ [v]), r2)
      | _ => none
    | none => none

end

/-- JavaScript `JSON.parse`: one value, then only trailing whitespace. -/
def jsonParse (l : Str) : Option JVal :=
  match parseJValue (l.length + 1) l with
  | some (v, rem) => if (skipWs rem).isEmpty then some v else none
  | none => none

/-! The parse fallback chain of `runClaudeCodegen`
(src/unnamed/part_000, lines 474-534). -/

/-- First some over a candidate list. -/
def firstSome {α β : Type} (f : α → Option β) : List α → Option β
  | [] => none
  | x :: xs =>
    match f x with
    | some r => some r
    | none => firstSome f xs

/-- Indices of `c` within `l`, ascending. -/
def idxsOf (l : Str) (c : Char) : List Nat :=
  (List.range l.length).filter (fun i => l.getD i ' ' == c)

/-- Start indices of occurrences of `pat` within `l`, ascending. -/
def occIdxs (l pat : Str) : List Nat :=
  (List.range l.length).filter (fun i => isPrefixL pat (l.drop i))

/-- Model of the strategy (a) regex of the parse chain (a fenced JSON block,
lazy group): at each occurrence of the literal opener the greedy whitespace
run backtracks to a newline terminator, and the lazy group runs to the first
later newline-plus-fence occurrence; on failure the scan resumes at later
opener occurrences. -/
def matchFencedJson : Str → Option Str
  | [] => none
  | c :: cs =>
    if isPrefixL ('`' :: '`' :: '`' :: 'j' :: 's' :: 'o' :: 'n' :: []) (c :: cs) then
      let rest := (c :: cs).drop 7
      let run := rest.takeWhile isWsJS
      let cand := (idxsOf run '\n').reverse
      match firstSome (fun k =>
          match splitFirst nlFence (rest.drop (k + 1)) with
          | some (g, _) => some g
          | none => none) cand with
      | some g => some g
      | none => matchFencedJson cs
    else matchFencedJson cs

def filesKeyQuoted : Str := '"' :: 'f' :: 'i' :: 'l' :: 'e' :: 's' :: '"' :: []

/-- Model of the strategy (b) regex `/\{[\s\S]*"files"[\s\S]*\}/` (greedy):
span from the first viable brace to the last closing brace, requiring a
`"files"` occurrence strictly inside. -/
def bracesFilesSpan (l : Str) : Option Str :=
  match (idxsOf l '}').getLast? with
  | none => none
  | some b =>
    match ((occIdxs l filesKeyQuoted).filter (fun p => p + 7 ≤ b)).getLast? with
    | none => none
    | some pmax =>
      match ((idxsOf l '{').filter (fun i => i < pmax)).head? with
      | none => none
      | some i => some ((l.drop i).take (b - i + 1))

/-- Model of the strategy (c) regex `/\{[\s\S]*\}/` (greedy): first opening
brace with a later closing brace, up to the last closing brace. -/
def anyBracesSpan (l : Str) : Option Str :=
  match (idxsOf l '}').getLast? with
  | none => none
  | some b =>
    match ((idxsOf l '{').filter (fun i => i < b)).head? with
    | none => none
    | some i => some ((l.drop i).take (b - i + 1))

/-- Global replace of `pat` plus one optional following newline by nothing
(the cleanup regexes of the repair pass). -/
def removeAllPatNl (pat : Str) : Nat → Str → Str
  | 0, _ => []
  | _, [] => []
  | fuel + 1, c :: cs =>
    if isPrefixL pat (c :: cs) then
      let rest := (c :: cs).drop pat.length
      match rest with
      | '\n' :: t => removeAllPatNl pat fuel t
      | _ => removeAllPatNl pat fuel rest
    else c :: removeAllPatNl pat fuel cs

/-- Drop the leading non-brace run: regex `^[^{]*` replaced by nothing. -/
def dropToBrace (l : Str) : Str := l.dropWhile (fun c => !(c == '{'))

/-- Drop the trailing non-brace run: regex `[^}]*$` replaced by nothing. -/
def dropAfterBrace (l : Str) : Str := l.rdropWhile (fun c => !(c == '}'))

/-- Is `c` in the JavaScript regex word class `\w`? -/
def isWordChar (c : Char) : Bool := c.isAlpha || c.isDigit || c == '_'

/-- Global replace of the regex `\b` by the two characters `\` and `b`.
Outside a character class `\b` asserts a word boundary, so this inserts the
pair at every word boundary — which is what `.replace(/\b/g, '\\b')` in the
source does, its `// Escape backspaces` comment notwithstanding. -/
def wordBoundaryMark : Bool → Str → Str
  | prevWord, [] => if prevWord then ['\\', 'b'] else []
  | prevWord, c :: cs =>
    (if prevWord != isWordChar c then ['\\', 'b'] else []) ++
      c :: wordBoundaryMark (isWordChar c) cs

def wbEscape (l : Str) : Str := wordBoundaryMark false l

/-- Global single-character replace (`String.prototype.replace` with a
one-character regex class and literal replacement). -/
def replaceChar (target : Char) (rep : Str) : Str → Str
  | [] => []
  | c :: cs => (if c == target then rep else [c]) ++ replaceChar target rep cs

/-- The escaping pipeline applied to one backtick-delimited content field in
the repair pass, in source order: backslash, quote, newline, carriage return,
tab, form feed, then the `\b` word-boundary replace. -/
def escapeContentField (content : Str) : Str :=
  wbEscape
    (replaceChar '\x0c' ('\\' :: 'f' :: [])
      (replaceChar '\t' ('\\' :: 't' :: [])
        (replaceChar '\r' ('\\' :: 'r' :: [])
          (replaceChar '\n' ('\\' :: 'n' :: [])
            (replaceChar '"' ('\\' :: '"' :: [])
              (replaceChar '\\' ('\\' :: '\\' :: []) content))))))

def contentKeyPat : Str :=
  '"' :: 'c' :: 'o' :: 'n' :: 't' :: 'e' :: 'n' :: 't' :: '"' :: ':' :: []

/-- Model of the repair regex
`/("content":\s*)`([^`]*)`/gs`: rewrite each backtick-delimited content field
through `escapeContentField`, scanning left to right without overlap. -/
def backtickRepair : Nat → Str → Str
  | 0, _ => []
  | _, [] => []
  | fuel + 1, c :: cs =>
    if isPrefixL contentKeyPat (c :: cs) then
      let rest := (c :: cs).drop 10
      let ws := rest.takeWhile isWsJS
      match rest.drop ws.length with
      | '`' :: body =>
        match splitFirst ['`'] body with
        | some (content, after) =>
          contentKeyPat ++ ws ++ '"' :: escapeContentField content ++
            '"' :: backtickRepair fuel after
        | none => c :: backtickRepair fuel cs
      | _ => c :: backtickRepair fuel cs
    else c :: backtickRepair fuel cs

/-- Model of the substring step closing the repair pass: keep from the first
`{` to the last `}` when both exist in that order. -/
def sliceBraces (l : Str) : Str :=
  match (idxsOf l '{').head?, (idxsOf l '}').getLast? with
  | some s, some e => if s < e then (l.drop s).take (e - s + 1) else l
  | _, _ => l

/-- The repair pass of `runClaudeCodegen` (the catch branch, lines 495-534):
strip fences, trim to the brace-delimited core, rewrite backtick content
fields, then retry `JSON.parse`. -/
def repairParse (resp : Str) : Option JVal :=
  let c1 := removeAllPatNl ('`' :: '`' :: '`' :: 'j' :: 's' :: 'o' :: 'n' :: [])
    resp.length resp
  let c2 := removeAllPatNl fence3 c1.length c1
  let c3 := dropToBrace c2
  let c4 := dropAfterBrace c3
  let c5 := trimL c4
  let c6 := backtickRepair c5.length c5
  let c7 := sliceBraces c6
  jsonParse c7

/-- The primary parse attempt of `runClaudeCodegen`: the fenced JSON block if
its regex matches, else the greedy `files` span, else any greedy brace span;
`none` covers both a missing candidate and a failed `JSON.parse` of the
selected candidate (either way control reaches the catch branch). -/
def parsePrimary (resp : Str) : Option JVal :=
  match matchFencedJson resp with
  | some g => jsonParse g
  | none =>
    match bracesFilesSpan resp with
    | some sp => jsonParse sp
    | none =>
      match anyBracesSpan resp with
      | some sp => jsonParse sp
      | none => none

/-- The whole parse chain: primary attempt, then the repair pass. -/
def parseFilesJson (resp : Str) : Option JVal :=
  match parsePrimary resp with
  | some v => some v
  | none => repairParse resp

def c6Resp : Str := "\x7b\"files\": [\x7b\"path\": \"p\", \"content\": `ab`\x7d]\x7d".data

/-- Claim C6 (code bug): on a payload whose only parse route is the repair
pass, a content field backtick-delimited as `ab` is not rewritten to the JSON
string for `ab`.  The final replace of the escaping chain uses a word-boundary
assertion (contradicting the adjacent `Escape backspaces` comment in the
source), so backspace escapes are injected at both word boundaries and the
parsed content is `U+0008 a b U+0008`. -/
theorem repairPass_wordBoundary_bug :
    parsePrimary c6Resp = none ∧
    parseFilesJson c6Resp =
      some (.jobj [("files".data,
        .jarr [.jobj [("path".data, .jstr ['p']),
                      ("content".data, .jstr ['\x08', 'a', 'b', '\x08'])]])]) ∧
    ('\x08' :: 'a' :: 'b' :: '\x08' :: []) ≠ "ab".data :=
  ⟨rfl, rfl, by decide⟩

/-! Model of `runClaudeCodegen` (src/unnamed/part_000, lines 24-590). -/

/-- Observable callback invocations and external calls of a generation run,
in order: `log` is `events.onLog`, `fileTree` is `events.onFileTree`,
`previewReady` is `events.onPreviewReady`, `errorCb` is `events.onError`, and
`modelCall` marks the Anthropic request. -/
inductive CodegenEffect
  | log (msg : Str)
  | modelCall (prompt : Str)
  | fileTree
  | previewReady (url : Str)
  | errorCb (msg : Str)
  deriving DecidableEq, Repr

inductive CodegenError
  | missingApiKey
  | modelCallFailed (msg : Str)
  | emptyResponse
  | parseFailed
  | invalidFormat
  | badFileEntry
  | previewFailed (msg : Str)
  deriving DecidableEq, Repr

/-- Environment of one run: outcome of the external model call and of the
local preview pipeline. -/
structure CodegenEnv where
  modelResponse : Except Str Str
  previewResult : Except Str Str

/-- Property lookup on a parsed JSON object (`JSON.parse` keeps the last
duplicate key). -/
def lookupKey (members : List (Str × JVal)) (k : Str) : Option JVal :=
  (members.reverse.find? (fun m => decide (m.1 = k))).map (fun m => m.2)

/-- The `filesData.files` access with its array check: any non-object payload,
missing/falsy `files`, or non-array `files` is rejected. -/
def asFilesArray (v : JVal) : Option (List JVal) :=
  match v with
  | .jobj ms =>
    match lookupKey ms "files".data with
    | some (.jarr items) => some items
    | _ => none
  | _ => none

/-- One entry of the files array as consumed by the write loop; entries
without string `path`/`content` make the original loop throw. -/
def asFileEntry (v : JVal) : Option GeneratedFile :=
  match v with
  | .jobj ms =>
    match lookupKey ms "path".data, lookupKey ms "content".data with
    | some (.jstr p), some (.jstr c) => some ⟨p, c⟩
    | _, _ => none
  | _ => none

/-- The per-file write loop: each entry is written then logged; a malformed
entry aborts the loop (the original code throws there), keeping the files
already written. -/
def writeLoop (sid : Str) : List JVal → FileSystem → List CodegenEffect →
    FileSystem × List CodegenEffect × Bool
  | [], fs, eff => (fs, eff, true)
  | v :: vs, fs, eff =>
    match asFileEntry v with
    | some f =>
      writeLoop sid vs (writeFile fs (fullPathOf sid f.path) f.content)
        (eff ++ [.log ("Created: ".data ++ f.path)])
    | none => (fs, eff, false)

/-- Continuation of `runClaudeCodegen` once a JSON value has been obtained:
validate the files array, materialize, build the tree, start the preview. -/
def afterParse (sessionId : Str) (env : CodegenEnv) (fs : FileSystem)
    (eff : List CodegenEffect) (v : JVal) :
    List CodegenEffect × FileSystem × Except CodegenError (Str × Str) :=
  match asFilesArray v with
  | none =>
    (eff ++ [.errorCb "Invalid response format: missing files array".data], fs,
      .error .invalidFormat)
  | some items =>
    match writeLoop sessionId items (rmRec (genDirOf sessionId) fs) eff with
    | (fs2, eff2, ok) =>
      if ok then
        let eff3 := eff2 ++
          [.fileTree, .log "Project structure created successfully!".data]
        match env.previewResult with
        | .error msg => (eff3 ++ [.errorCb msg], fs2, .error (.previewFailed msg))
        | .ok url =>
          (eff3 ++ [.previewReady url,
            .log ("Preview ready at: ".data ++ url)], fs2,
            .ok (url, repoDirOf sessionId))
      else
        (eff2 ++ [.errorCb "bad file entry".data], fs2, .error .badFileEntry)

/-- Model of `runClaudeCodegen`: the `ANTHROPIC_API_KEY` check precedes the
first `onLog` call and the whole try block, so a missing key produces no
effect at all — in particular `onError` is not invoked for it.  Afterwards,
every failure inside the try block reaches the catch, which calls `onError`
and rethrows. -/
def runClaudeCodegen (apiKey : Option Str) (yamlPrompt sessionId : Str)
    (env : CodegenEnv) (fs : FileSystem) :
    List CodegenEffect × FileSystem × Except CodegenError (Str × Str) :=
  match apiKey with
  | none => ([], fs, .error .missingApiKey)
  | some _ =>
    let eff1 : List CodegenEffect :=
      [.log "Starting Claude code generation...".data,
       .log "Calling Claude to generate project files...".data, .modelCall yamlPrompt]
    match env.modelResponse with
    | .error msg => (eff1 ++ [.errorCb msg], fs, .error (.modelCallFailed msg))
    | .ok response =>
      if response.isEmpty then
        (eff1 ++ [.errorCb "Claude returned empty response".data], fs,
          .error .emptyResponse)
      else
        let eff2 := eff1 ++ [.log "Parsing generated files...".data]
        match parsePrimary response with
        | some v => afterParse sessionId env fs eff2 v
        | none =>
          let eff3 := eff2 ++ [.log "Failed to parse JSON, attempting to fix...".data]
          match repairParse response with
          | some v => afterParse sessionId env fs eff3 v
          | none =>
            (eff3 ++
              [.log ("Raw Claude response: ".data ++ response.take 200 ++ "...".data),
               .errorCb "Failed to parse JSON from Claude response".data], fs,
              .error .parseFailed)

/-- Claim C10: with the API key unset, `runClaudeCodegen` fails immediately —
no log event, no model call, no filesystem mutation — and since the throw
precedes the try block, the `onError` callback is never invoked. -/
theorem runClaudeCodegen_missing_key (yamlPrompt sessionId : Str)
    (env : CodegenEnv) (fs : FileSystem) :
    runClaudeCodegen none yamlPrompt sessionId env fs
      = ([], fs, .error .missingApiKey) := rfl

end VoiceCreation
